import Mathlib

/-!
Verification of `mesh_filter_base.cpp` (moveit mesh filter core).

This file shallowly embeds the handle registry (`addMesh` / `removeMesh`),
the job-queue executor (`addJob`, `run`, the destructor's shutdown drain,
and the two-job enqueue of `getModelDepth` / `getFilteredDepth`), the
`filter` entry point's encoding check, the padding computation and the
per-mesh transform-callback loop of `doFilter`, and the scale/bias depth
transfer set up for `GL_UNSIGNED_SHORT` sensor frames.

Machine floats are embedded as rationals; the mesh payloads and poses are
abstract type parameters, since only their identity matters to the claims.
-/

namespace MeshFilter

/-! ### Mesh registry: `addMesh` / `removeMesh` (mesh_filter_base.cpp:172-215)

`addMesh` and `removeMesh` each hold `meshes_mutex_` for their whole body and
block on their own job, so the registry evolves sequentially and is embedded
as a pure state machine. -/

/-- Modelled from the spec: `FIRST_LABEL` is declared in
`mesh_filter_base.hpp`, which is not under `src/`. The spec reserves the two
lowest handle values and the constructor comment says "0 and 1 are
reserved!", so the first issuable handle is 2. -/
def FIRST_LABEL : ℕ := 2

/-- The registry state: the set of registered handles (`meshes_`, the map's
key set; the stored `GLMesh` values play no role in the handle claims),
`next_handle_` and `min_handle_`. -/
structure RegState where
  meshes : Finset ℕ
  next : ℕ
  minH : ℕ
deriving DecidableEq

/-- Registry state right after construction (mesh_filter_base.cpp:61-62):
`next_handle_ = FIRST_LABEL`, `min_handle_ = FIRST_LABEL`, no meshes. -/
def initReg : RegState := ⟨∅, FIRST_LABEL, FIRST_LABEL⟩

/-- The scan loop of `addMesh` (mesh_filter_base.cpp:181-188):
`for (i = start; i < start + fuel; ++i) if (meshes.find(i) == end) { next = i; break; }`.
If no iteration hits a free value, `next_handle_` keeps its old value
(`dflt`). -/
def scanFree (meshes : Finset ℕ) (start fuel dflt : ℕ) : ℕ :=
  match fuel with
  | 0 => dflt
  | n + 1 => if start ∉ meshes then start else scanFree meshes (start + 1) n dflt

/-- `MeshFilterBase::addMesh` (mesh_filter_base.cpp:172-191): the job inserts
the mesh at `next_handle_`; after the job, the returned handle is the old
`next_handle_`, then the loop rescans `[min_handle_, min_handle_ + size + 1)`
for the first free value and `min_handle_` is set to the new `next_handle_`. -/
def addMesh (s : RegState) : ℕ × RegState :=
  let meshes := insert s.next s.meshes
  let ret := s.next
  let next := scanFree meshes s.minH (meshes.card + 1) s.next
  (ret, ⟨meshes, next, next⟩)

/-- The message of the `std::runtime_error` thrown by `removeMesh`
(mesh_filter_base.cpp:207). -/
def meshNotFoundMsg : String := "Could not remove mesh. Mesh not found!"

/-- `MeshFilterBase::removeMesh` with `removeMeshHelper`
(mesh_filter_base.cpp:198-215): the job erases the handle and reports whether
anything was erased; on a false report the caller throws before touching
`min_handle_`, otherwise `min_handle_ = min(handle, min_handle_)`. The pair
carries the outcome and the post-call state. -/
def removeMesh (s : RegState) (handle : ℕ) : Except String Unit × RegState :=
  let erased := handle ∈ s.meshes
  let meshes := s.meshes.erase handle
  if erased then
    (Except.ok (), ⟨meshes, s.next, min handle s.minH⟩)
  else
    (Except.error meshNotFoundMsg, ⟨meshes, s.next, s.minH⟩)

/-- A registry operation issued by a caller: register a mesh, or unregister
a handle (a failed unregister throws but leaves the state unchanged). -/
inductive RegOp
  | add
  | remove (handle : ℕ)

/-- One registry operation applied to the state. -/
def regStep (s : RegState) : RegOp → RegState
  | RegOp.add => (addMesh s).2
  | RegOp.remove handle => (removeMesh s handle).2

/-- The registry state after a sequence of add/remove calls from a fresh
filter. -/
def runOps (ops : List RegOp) : RegState :=
  ops.foldl regStep initReg

/-- The registry invariant maintained by every add/remove sequence. -/
structure RegInv (s : RegState) : Prop where
  next_free : s.next ∉ s.meshes
  first_le_min : FIRST_LABEL ≤ s.minH
  first_le_next : FIRST_LABEL ≤ s.next
  mem_ge : ∀ a ∈ s.meshes, FIRST_LABEL ≤ a

/-- Concrete trace for claim C1: state after `addMesh` (returns 2). -/
def regEx1 : RegState := (addMesh initReg).2

/-- State after a second `addMesh` (returns 3). -/
def regEx2 : RegState := (addMesh regEx1).2

/-- State after `removeMesh(2)` — removing the first handle. -/
def regEx3 : RegState := (removeMesh regEx2 2).2

/-- State after the third `addMesh` (which returns 4, not the freed 2). -/
def regEx4 : RegState := (addMesh regEx3).2

/-! ### Executor: job queue, worker loop, shutdown (mesh_filter_base.cpp:123-145, 230-259, 269-293)

Every mutation of the queue happens inside a `jobs_mutex_` critical section,
so the system is embedded as a labelled transition system whose atomic steps
are exactly those critical sections (plus the unlocked `job->execute()`).
Jobs are named by the order in which they are pushed: the id of a job is the
value of the push counter at its submission, so id order is submission order.

Modelled from the spec: the `Job` / `FilterJob` class lives in
`filter_job.hpp`, which is not under `src/`. Its state machine is taken from
the spec: *pending* → *running* → *completed*, with *pending* → *cancelled*
(`Job::cancel()` wakes the waiter with a cancelled outcome) as the only other
transition. -/

/-- Lifecycle status of a job (spec data model), plus `unsubmitted` for ids
not yet issued. -/
inductive JStatus
  | unsubmitted
  | pending
  | running
  | completed
  | cancelled
deriving DecidableEq

/-- Pointwise update of the status table. -/
def setStatus (f : ℕ → JStatus) (k : ℕ) (v : JStatus) : ℕ → JStatus :=
  fun n => if n = k then v else f n

/-- Global state of the executor: the push counter, the pending queue
(`jobs_queue_`), the job the worker popped and is currently executing, the
ids already executed in execution order, the `stop_` flag, and each job's
status. -/
structure ExecState where
  submitted : ℕ
  queue : List ℕ
  current : Option ℕ
  executed : List ℕ
  stop : Bool
  status : ℕ → JStatus

/-- Executor state right after the constructor spawns the worker. -/
def initExec : ExecState :=
  ⟨0, [], none, [], false, fun _ => JStatus.unsubmitted⟩

/-- All jobs currently owned by the pipeline, in pipeline order: already
executed, then the one being executed, then the queue. -/
def live (s : ExecState) : List ℕ :=
  s.executed ++ s.current.toList ++ s.queue

/-- `MeshFilterBase::addJob` (mesh_filter_base.cpp:138-145): push one job
under the lock and notify. -/
def submitStep (s : ExecState) : ExecState :=
  { s with submitted := s.submitted + 1,
           queue := s.queue ++ [s.submitted],
           status := setStatus s.status s.submitted JStatus.pending }

/-- `MeshFilterBase::getModelDepth` / `getFilteredDepth`
(mesh_filter_base.cpp:230-259): push the buffer-readback job and the
metric-conversion job under a single acquisition of `jobs_mutex_`, so they
are adjacent in the queue and get consecutive ids. -/
def submitPairStep (s : ExecState) : ExecState :=
  { s with submitted := s.submitted + 2,
           queue := s.queue ++ [s.submitted, s.submitted + 1],
           status := setStatus (setStatus s.status s.submitted JStatus.pending)
                       (s.submitted + 1) JStatus.pending }

/-- The worker picking up the head of the queue
(mesh_filter_base.cpp:283-287): only while `stop_` is unset (loop guard),
only when the previous job is done, FIFO. -/
def dequeueStep (s : ExecState) (j : ℕ) (rest : List ℕ) : ExecState :=
  { s with queue := rest, current := some j,
           status := setStatus s.status j JStatus.running }

/-- The worker finishing `job->execute()` (mesh_filter_base.cpp:288): the
executed job completes; the waiter is released with its result. -/
def completeStep (s : ExecState) (j : ℕ) : ExecState :=
  { s with current := none, executed := s.executed ++ [j],
           status := setStatus s.status j JStatus.completed }

/-- `MeshFilterBase::~MeshFilterBase` (mesh_filter_base.cpp:123-136): under
the lock, set `stop_` and cancel-and-pop every queued job. -/
def shutdownStep (s : ExecState) : ExecState :=
  { s with stop := true, queue := [],
           status := fun n => if n ∈ s.queue then JStatus.cancelled else s.status n }

/-- One atomic transition of the executor system: a caller thread submitting
one job (`addJob`) or an adjacent pair (`getModelDepth` / `getFilteredDepth`),
the worker dequeuing or completing a job, or the destructor draining the
queue. -/
inductive Step : ExecState → ExecState → Prop
  | submit (s : ExecState) : Step s (submitStep s)
  | submitPair (s : ExecState) : Step s (submitPairStep s)
  | dequeue (s : ExecState) (j : ℕ) (rest : List ℕ) :
      s.stop = false → s.current = none → s.queue = j :: rest →
      Step s (dequeueStep s j rest)
  | complete (s : ExecState) (j : ℕ) :
      s.current = some j → Step s (completeStep s j)
  | shutdown (s : ExecState) : Step s (shutdownStep s)

/-- States reachable from a freshly constructed executor. -/
inductive Reach : ExecState → Prop
  | init : Reach initExec
  | step {s t : ExecState} : Reach s → Step s t → Reach t

/-- The executor invariant, preserved by every transition. -/
structure ExecInv (s : ExecState) : Prop where
  sorted : (live s).Sorted (· < ·)
  lt_sub : ∀ j ∈ live s, j < s.submitted
  q_pending : ∀ j ∈ s.queue, s.status j = JStatus.pending
  e_completed : ∀ j ∈ s.executed, s.status j = JStatus.completed
  c_running : ∀ j, s.current = some j → s.status j = JStatus.running
  run_current : ∀ j, s.status j = JStatus.running → s.current = some j
  hi_unsub : ∀ j, s.submitted ≤ j → s.status j = JStatus.unsubmitted
  account : ∀ j, j < s.submitted → j ∈ live s ∨ s.status j = JStatus.cancelled
  canc_stop : ∀ j, s.status j = JStatus.cancelled → s.stop = true
  canc_up : ∀ a b, a ≤ b → s.status a = JStatus.cancelled → b < s.submitted →
      s.status b = JStatus.cancelled ∨ b ∈ s.queue

/-- Concrete executor trace (two single submissions, both executed). -/
def execA1 : ExecState := submitStep initExec

/-- ... after the second submission. -/
def execA2 : ExecState := submitStep execA1

/-- ... after the worker dequeues job 0. -/
def execA3 : ExecState := dequeueStep execA2 0 [1]

/-- ... after job 0 completes. -/
def execA4 : ExecState := completeStep execA3 0

/-- ... after the worker dequeues job 1. -/
def execA5 : ExecState := dequeueStep execA4 1 []

/-- ... after job 1 completes: `executed = [0, 1]`. -/
def execA6 : ExecState := completeStep execA5 1

/-- Concrete executor trace for shutdown: one job submitted... -/
def execB1 : ExecState := submitStep initExec

/-- ... then the destructor runs before the worker picks it up. -/
def execB2 : ExecState := shutdownStep execB1

/-- Concrete executor trace for `getModelDepth`: the adjacent pair pushed... -/
def execC1 : ExecState := submitPairStep initExec

/-- ... worker dequeues the readback job 0... -/
def execC2 : ExecState := dequeueStep execC1 0 [1]

/-- ... readback job 0 completes... -/
def execC3 : ExecState := completeStep execC2 0

/-- ... worker dequeues the conversion job 1... -/
def execC4 : ExecState := dequeueStep execC3 1 []

/-- ... conversion job 1 completes: `executed = [0, 1]`. -/
def execC5 : ExecState := completeStep execC4 1

/-! ### `filter` entry point and its encoding check (mesh_filter_base.cpp:295-308) -/

/-- OpenGL's `GL_FLOAT` enumerant (0x1406). -/
def GL_FLOAT : ℕ := 0x1406

/-- OpenGL's `GL_UNSIGNED_SHORT` enumerant (0x1403). -/
def GL_UNSIGNED_SHORT : ℕ := 0x1403

/-- Caller-visible filter-pipeline state for the `filter` entry point: the
pending job queue plus the previously rendered / filtered buffers (abstract
contents — only "unchanged" matters to the claim). -/
structure FilterState where
  queue : List ℕ
  modelBuffers : List ℚ
  filteredBuffers : List ℚ
deriving DecidableEq

/-- The message of the `std::runtime_error` thrown by `filter`
(mesh_filter_base.cpp:299-301). -/
def unknownTypeMsg : String := "unknown type. Allowed values are GL_FLOAT or GL_UNSIGNED_SHORT."

/-- `MeshFilterBase::filter` (mesh_filter_base.cpp:295-308): if the encoding
tag is neither `GL_FLOAT` nor `GL_UNSIGNED_SHORT`, throw before constructing
or enqueuing any job; otherwise enqueue the `doFilter` job (recorded by its
encoding tag). The pair carries the outcome and the post-call state. -/
def filter (s : FilterState) (ty : ℕ) : Except String Unit × FilterState :=
  if ty ≠ GL_FLOAT ∧ ty ≠ GL_UNSIGNED_SHORT then
    (Except.error unknownTypeMsg, s)
  else
    (Except.ok (), { s with queue := s.queue ++ [ty] })

/-- A concrete filter-pipeline state with prior buffers. -/
def filterEx : FilterState := ⟨[], [1, 2], [3]⟩

/-! ### Padding coefficients (mesh_filter_base.cpp:325-328) -/

/-- An Eigen `Vector3f`, embedded over ℚ. -/
structure Vec3 where
  x : ℚ
  y : ℚ
  z : ℚ
deriving DecidableEq

/-- Eigen componentwise vector-scalar product. -/
def vscale (v : Vec3) (c : ℚ) : Vec3 := ⟨v.x * c, v.y * c, v.z * c⟩

/-- Eigen componentwise vector addition. -/
def vadd (a b : Vec3) : Vec3 := ⟨a.x + b.x, a.y + b.y, a.z + b.z⟩

/-- The padding uniform computed by `MeshFilterBase::doFilter`
(mesh_filter_base.cpp:326-327):
`sensor_parameters_->getPaddingCoefficients() * padding_scale_ + Eigen::Vector3f(0, 0, padding_offset_)`. -/
def effectivePadding (base : Vec3) (padding_scale padding_offset : ℚ) : Vec3 :=
  vadd (vscale base padding_scale) ⟨0, 0, padding_offset⟩

/-- The spec's formula
`effective_padding = base_padding_coefficients * padding_scale + fixed_offset`,
written componentwise; the fixed offset is the vector `(0, 0, offset)` (the
only well-typed reading of adding the scalar offset to the coefficient
vector, matching the code). -/
def specPadding (base : Vec3) (padding_scale padding_offset : ℚ) : Vec3 :=
  ⟨base.x * padding_scale, base.y * padding_scale, base.z * padding_scale + padding_offset⟩

/-! ### Render pass over registered meshes (mesh_filter_base.cpp:330-335) -/

/-- The render loop of `MeshFilterBase::doFilter`
(mesh_filter_base.cpp:331-335): iterate over the registered meshes in order;
for each one invoke the transform callback once; render exactly those whose
pose is available. Returns the list of callback invocations (by handle, in
order) and the rendered (handle, pose) list in order. `α` is the stored mesh
payload, `β` the pose type. -/
def renderPass {α β : Type} (cb : ℕ → Option β) : List (ℕ × α) → List ℕ × List (ℕ × β)
  | [] => ([], [])
  | m :: rest =>
    let r := renderPass cb rest
    match cb m.1 with
    | some t => (m.1 :: r.1, (m.1, t) :: r.2)
    | none => (m.1 :: r.1, r.2)

/-! ### Unsigned-short depth transfer (mesh_filter_base.cpp:362-378) -/

/-- `scale = 1.0 / (far - near)` (mesh_filter_base.cpp:362-363). -/
def depthTransferScale (near far : ℚ) : ℚ := 1 / (far - near)

/-- `GL_DEPTH_SCALE` set for `GL_UNSIGNED_SHORT` frames
(mesh_filter_base.cpp:372): `scale * 65.535`. -/
def depthScaleUnsignedShort (near far : ℚ) : ℚ :=
  depthTransferScale near far * 65.535

/-- `GL_DEPTH_BIAS` (mesh_filter_base.cpp:378): `-scale * near`. -/
def depthBias (near far : ℚ) : ℚ := -depthTransferScale near far * near

/-- Clamp to the depth-component range `[0, 1]`. -/
def clamp01 (v : ℚ) : ℚ := max 0 (min 1 v)

/-- The value stored in the sensor depth texture for an unsigned 16-bit
sample `d`. Modelled from the spec: the rendering backend ("upload a 2D image
as a depth-comparable texture with a given encoding") follows the OpenGL
pixel-transfer semantics the code programs via `glPixelTransferf`: the sample
is first normalized to `d / 65535`, then multiplied by `GL_DEPTH_SCALE`,
added to `GL_DEPTH_BIAS`, and clamped to `[0, 1]`. -/
def transferredDepthUnsignedShort (near far : ℚ) (d : ℕ) : ℚ :=
  clamp01 ((d : ℚ) / 65535 * depthScaleUnsignedShort near far + depthBias near far)

/-- Modelled from the spec: `SensorModel::Parameters`' buffer-to-metric
conversion is not under `src/`; per the code comment "we want:
[near - far] -> [0 - 1]" (mesh_filter_base.cpp:371), a buffer value `v` in
`[0, 1]` stands for the metric depth `near + v * (far - near)`, so buffer 0
is the near and buffer 1 the far clipping distance. -/
def bufferToMetric (near far v : ℚ) : ℚ := near + v * (far - near)

/-- The metric depth an unsigned 16-bit sensor sample `d` converts to. -/
def convertedMetricDepth (near far : ℚ) (d : ℕ) : ℚ :=
  bufferToMetric near far (transferredDepthUnsignedShort near far d)

end MeshFilter

namespace MeshFilter

/-! ## Registry lemmas -/

theorem scanFree_spec (S : Finset ℕ) (d : ℕ) :
    ∀ fuel start, (∃ i, start ≤ i ∧ i < start + fuel ∧ i ∉ S) →
      scanFree S start fuel d ∉ S ∧ start ≤ scanFree S start fuel d ∧
      ∀ j, start ≤ j → j < scanFree S start fuel d → j ∈ S := by
  intro fuel
  induction fuel with
  | zero =>
    intro start h
    obtain ⟨i, h1, h2, _⟩ := h
    omega
  | succ n ih =>
    intro start h
    by_cases hs : start ∈ S
    · have hrec : ∃ i, start + 1 ≤ i ∧ i < start + 1 + n ∧ i ∉ S := by
        obtain ⟨i, h1, h2, h3⟩ := h
        refine ⟨i, ?_, by omega, h3⟩
        rcases Nat.eq_or_lt_of_le h1 with heq | hlt
        · exact absurd hs (heq ▸ h3)
        · omega
      obtain ⟨r1, r2, r3⟩ := ih (start + 1) hrec
      rw [scanFree, if_neg (by simpa using hs)]
      refine ⟨r1, by omega, ?_⟩
      intro j hj1 hj2
      rcases Nat.eq_or_lt_of_le hj1 with heq | hlt
      · exact heq ▸ hs
      · exact r3 j hlt hj2
    · rw [scanFree, if_pos hs]
      exact ⟨hs, le_refl _, fun j hj1 hj2 => absurd (lt_of_le_of_lt hj1 hj2) (lt_irrefl _)⟩

theorem exists_free_in_window (S : Finset ℕ) (start : ℕ) :
    ∃ i, start ≤ i ∧ i < start + (S.card + 1) ∧ i ∉ S := by
  by_contra hc
  push_neg at hc
  have hsub : Finset.Ico start (start + (S.card + 1)) ⊆ S := by
    intro i hi
    rw [Finset.mem_Ico] at hi
    exact hc i hi.1 hi.2
  have hcard := Finset.card_le_card hsub
  rw [Nat.card_Ico] at hcard
  omega

theorem addMesh_spec (s : RegState) :
    (addMesh s).1 = s.next ∧
    (addMesh s).2.meshes = insert s.next s.meshes ∧
    (addMesh s).2.next ∉ (addMesh s).2.meshes ∧
    s.minH ≤ (addMesh s).2.next ∧
    (∀ j, s.minH ≤ j → j < (addMesh s).2.next → j ∈ (addMesh s).2.meshes) ∧
    (addMesh s).2.minH = (addMesh s).2.next := by
  have hfree := exists_free_in_window (insert s.next s.meshes) s.minH
  have hspec := scanFree_spec (insert s.next s.meshes) s.next
      ((insert s.next s.meshes).card + 1) s.minH hfree
  exact ⟨rfl, rfl, hspec.1, hspec.2.1, hspec.2.2, rfl⟩

theorem regInv_init : RegInv initReg := by
  constructor <;> simp [initReg]

theorem regInv_addMesh {s : RegState} (h : RegInv s) : RegInv (addMesh s).2 := by
  obtain ⟨_, hmeshes, hnext, hmin, _, hminh⟩ := addMesh_spec s
  constructor
  · exact hmeshes ▸ hnext
  · rw [hminh]; exact le_trans h.first_le_min hmin
  · exact le_trans h.first_le_min hmin
  · intro a ha
    rw [hmeshes, Finset.mem_insert] at ha
    rcases ha with rfl | ha
    · exact h.first_le_next
    · exact h.mem_ge a ha

theorem regInv_removeMesh {s : RegState} (handle : ℕ) (h : RegInv s) :
    RegInv (removeMesh s handle).2 := by
  unfold removeMesh
  by_cases hm : handle ∈ s.meshes <;> simp only [hm, if_pos, if_neg, not_false_iff]
  · constructor
    · intro hc
      exact h.next_free (Finset.mem_of_mem_erase hc)
    · exact le_min (h.mem_ge handle hm) h.first_le_min
    · exact h.first_le_next
    · intro a ha
      exact h.mem_ge a (Finset.mem_of_mem_erase ha)
  · constructor
    · intro hc
      exact h.next_free (Finset.mem_of_mem_erase hc)
    · exact h.first_le_min
    · exact h.first_le_next
    · intro a ha
      exact h.mem_ge a (Finset.mem_of_mem_erase ha)

theorem regInv_runOps (ops : List RegOp) : RegInv (runOps ops) := by
  suffices hgen : ∀ (l : List RegOp) (s : RegState), RegInv s → RegInv (l.foldl regStep s) from
    hgen ops initReg regInv_init
  intro l
  induction l with
  | nil => intro s hs; exact hs
  | cons op rest ih =>
    intro s hs
    apply ih
    cases op with
    | add => exact regInv_addMesh hs
    | remove handle => exact regInv_removeMesh handle hs

end MeshFilter

namespace MeshFilter

/-- Claim C1 counterexample: starting from a fresh filter, `addMesh` returns 2,
a second `addMesh` returns 3, and after `removeMesh(2)` the next `addMesh`
returns 4 — not the freed handle 2, although 2 is unassigned and at least
`FIRST_LABEL`. So `addMesh` does not always return the smallest handle value
not currently in use, and the claim's own example sequence fails. -/
theorem C1_counterexample :
    regEx3 = runOps [RegOp.add, RegOp.add, RegOp.remove 2] ∧
    (addMesh initReg).1 = 2 ∧ (addMesh regEx1).1 = 3 ∧
    (removeMesh regEx2 2).1 = Except.ok () ∧
    (addMesh regEx3).1 = 4 ∧ 2 ∉ regEx3.meshes ∧ FIRST_LABEL ≤ 2 ∧ (2 : ℕ) < 4 :=
  ⟨by decide, by decide, by decide, rfl, by decide, by decide, by decide, by decide⟩

/-- Claim C1 (amended): for every sequence of addMesh/removeMesh operations,
`addMesh` returns the pre-computed `next_handle_`: a handle that is not
currently assigned to a registered mesh and is at least the reserved first
handle value (the two lowest values are never issued). After each `addMesh`,
the stored `next_handle_` is recomputed as the smallest value at least
`min_handle_` that is then unassigned, and `min_handle_` is set to it; a
removal lowers `min_handle_` but does not recompute `next_handle_`, so after
add, add, remove(first), the next add returns a fresh handle (4) and only the
add after that returns the removed first handle (2) again. -/
theorem C1_amended_handle_allocation (ops : List RegOp) :
    (addMesh (runOps ops)).1 = (runOps ops).next ∧
    (addMesh (runOps ops)).1 ∉ (runOps ops).meshes ∧
    FIRST_LABEL ≤ (addMesh (runOps ops)).1 ∧
    (addMesh (runOps ops)).2.next ∉ (addMesh (runOps ops)).2.meshes ∧
    (runOps ops).minH ≤ (addMesh (runOps ops)).2.next ∧
    (∀ j, (runOps ops).minH ≤ j → j < (addMesh (runOps ops)).2.next →
      j ∈ (addMesh (runOps ops)).2.meshes) ∧
    (addMesh (runOps ops)).2.minH = (addMesh (runOps ops)).2.next ∧
    (addMesh regEx3).1 = 4 ∧ (addMesh regEx4).1 = 2 := by
  have hinv := regInv_runOps ops
  obtain ⟨h1, _, h3, h4, h5, h6⟩ := addMesh_spec (runOps ops)
  refine ⟨h1, h1 ▸ hinv.next_free, h1 ▸ hinv.first_le_next, h3, h4, h5, h6, by decide, by decide⟩

/-- Witness for the amended C1 at the empty operation sequence (a fresh
filter): the first `addMesh` returns `next_handle_ = 2`, unassigned and at
least `FIRST_LABEL`; plus the concrete delayed-reuse trace facts. -/
theorem C1_witness :
    (addMesh (runOps [])).1 = (runOps []).next ∧
    (addMesh (runOps [])).1 ∉ (runOps []).meshes ∧
    FIRST_LABEL ≤ (addMesh (runOps [])).1 ∧
    ((addMesh regEx3).1 = 4 ∧ (addMesh regEx4).1 = 2) := by
  have h := C1_amended_handle_allocation []
  exact ⟨h.1, h.2.1, h.2.2.1, h.2.2.2.2.2.2.2.1, h.2.2.2.2.2.2.2.2⟩

/-- Claim C6: `removeMesh(h)` succeeds exactly when `h` is currently
registered; an unregistered (or already removed) handle produces the explicit
"mesh not found" error, never silent success; and on success the reuse bound
`min_handle_` becomes `min(h, min_handle_)` — lowered to `h` exactly when `h`
is smaller — while the registry drops `h`. -/
theorem C6_removeMesh_success_iff (s : RegState) (handle : ℕ) :
    ((removeMesh s handle).1 = Except.ok () ↔ handle ∈ s.meshes) ∧
    ((removeMesh s handle).1 = Except.error meshNotFoundMsg ↔ handle ∉ s.meshes) ∧
    (removeMesh s handle).2.minH =
      (if handle ∈ s.meshes then min handle s.minH else s.minH) ∧
    (removeMesh s handle).2.meshes = s.meshes.erase handle := by
  unfold removeMesh
  by_cases h : handle ∈ s.meshes <;> simp [h]

/-- Claim C9: a failing `removeMesh` is atomic — erasing the absent key is a
no-op on the registry and the error is raised before the `min_handle_`
update, so the whole state is unchanged. -/
theorem C9_removeMesh_failure_atomic (s : RegState) (handle : ℕ)
    (h : handle ∉ s.meshes) :
    (removeMesh s handle).1 = Except.error meshNotFoundMsg ∧
    (removeMesh s handle).2 = s := by
  have he : s.meshes.erase handle = s.meshes := Finset.erase_eq_of_not_mem h
  obtain ⟨m, n, mh⟩ := s
  simp_all [removeMesh]

/-- Witness for C9 at a concrete state: handle 7 is not registered in
`regEx3`, and removing it errors and leaves the state untouched. -/
theorem C9_witness :
    7 ∉ regEx3.meshes ∧
    ((removeMesh regEx3 7).1 = Except.error meshNotFoundMsg ∧
      (removeMesh regEx3 7).2 = regEx3) :=
  ⟨by decide, C9_removeMesh_failure_atomic regEx3 7 (by decide)⟩

end MeshFilter

namespace MeshFilter

/-! ## `filter` encoding check, padding, render pass, depth transfer -/

/-- Claim C5: calling `filter` with an encoding tag that is neither
`GL_FLOAT` nor `GL_UNSIGNED_SHORT` fails synchronously with the explicit
"unknown type" error, before any job is enqueued and before any rendering:
the job queue and all previously rendered/filtered buffers are unchanged. -/
theorem C5_unknown_encoding_rejected (s : FilterState) (ty : ℕ)
    (h1 : ty ≠ GL_FLOAT) (h2 : ty ≠ GL_UNSIGNED_SHORT) :
    (filter s ty).1 = Except.error unknownTypeMsg ∧ (filter s ty).2 = s := by
  unfold filter
  rw [if_pos ⟨h1, h2⟩]
  exact ⟨rfl, rfl⟩

/-- Witness for C5: the tag 5125 (`GL_INT`) is unsupported; `filter` on a
state with prior buffers errors and leaves the state unchanged. -/
theorem C5_witness :
    (5125 ≠ GL_FLOAT ∧ 5125 ≠ GL_UNSIGNED_SHORT) ∧
    ((filter filterEx 5125).1 = Except.error unknownTypeMsg ∧
      (filter filterEx 5125).2 = filterEx) :=
  ⟨⟨by decide, by decide⟩,
    C5_unknown_encoding_rejected filterEx 5125 (by decide) (by decide)⟩

/-- Claim C7: the padding uniform passed to the renderer equals the base
padding coefficients scaled by the current padding scale, with the fixed
padding offset added (to the z component, the only well-typed reading):
`effective_padding = base_padding_coefficients * padding_scale + fixed_offset`. -/
theorem C7_effective_padding (base : Vec3) (padding_scale padding_offset : ℚ) :
    effectivePadding base padding_scale padding_offset =
      specPadding base padding_scale padding_offset := by
  unfold effectivePadding specPadding vadd vscale
  simp

theorem renderPass_calls {α β : Type} (cb : ℕ → Option β) (ms : List (ℕ × α)) :
    (renderPass cb ms).1 = ms.map Prod.fst := by
  induction ms with
  | nil => rfl
  | cons m rest ih =>
    unfold renderPass
    cases h : cb m.1 <;> simp [h, ih]

theorem renderPass_skips {α β : Type} (cb : ℕ → Option β) (ms : List (ℕ × α))
    (k : ℕ) (hc : cb k = none) : ∀ t, (k, t) ∉ (renderPass cb ms).2 := by
  induction ms with
  | nil => intro t ht; simp [renderPass] at ht
  | cons m rest ih =>
    intro t ht
    unfold renderPass at ht
    cases hm : cb m.1 <;> rw [hm] at ht <;> simp only [] at ht
    · exact ih t ht
    · rcases List.mem_cons.mp ht with heq | ht
      · have hk : k = m.1 := congrArg Prod.fst heq
        rw [hk, hm] at hc
        exact Option.noConfusion hc
      · exact ih t ht

theorem renderPass_renders {α β : Type} (cb : ℕ → Option β) (ms : List (ℕ × α))
    (k : ℕ) (a : α) (t : β) (hm : (k, a) ∈ ms) (hc : cb k = some t) :
    (k, t) ∈ (renderPass cb ms).2 := by
  induction ms with
  | nil => simp at hm
  | cons m rest ih =>
    rcases List.mem_cons.mp hm with heq | hmem
    · have hk : m.1 = k := by rw [← heq]
      unfold renderPass
      rw [hk, hc]
      simp
    · unfold renderPass
      cases hcm : cb m.1 <;> simp only []
      · exact ih hmem
      · exact List.mem_cons_of_mem _ (ih hmem)

/-- Claim C8: during a render pass, the transform callback is invoked exactly
once for every registered mesh (in registry order); a mesh whose pose is
unavailable is silently skipped — it contributes nothing to the rendered
output — and every mesh whose pose is available is rendered with that pose. -/
theorem C8_render_pass_callback {α β : Type} (ms : List (ℕ × α)) (cb : ℕ → Option β) :
    (renderPass cb ms).1 = ms.map Prod.fst ∧
    ((ms.map Prod.fst).Nodup →
      ∀ k ∈ ms.map Prod.fst, (renderPass cb ms).1.count k = 1) ∧
    (∀ k, cb k = none → ∀ t, (k, t) ∉ (renderPass cb ms).2) ∧
    (∀ k a t, (k, a) ∈ ms → cb k = some t → (k, t) ∈ (renderPass cb ms).2) := by
  refine ⟨renderPass_calls cb ms, ?_, renderPass_skips cb ms, ?_⟩
  · intro hnd k hk
    rw [renderPass_calls]
    exact List.count_eq_one_of_mem hnd hk
  · intro k a t hm hc
    exact renderPass_renders cb ms k a t hm hc

/-- Witness for C8: registry `[(2, m), (3, m)]`, callback available only for
handle 2 (pose 7): both handles are queried once, handle 3 is skipped, and
`(2, 7)` is rendered. -/
theorem C8_witness :
    (renderPass (fun n => if n = 2 then some 7 else (none : Option ℕ)) [(2, 0), (3, (0 : ℕ))]).1
        = [2, 3] ∧
    (renderPass (fun n => if n = 2 then some 7 else (none : Option ℕ)) [(2, 0), (3, (0 : ℕ))]).1.count 2 = 1 ∧
    (renderPass (fun n => if n = 2 then some 7 else (none : Option ℕ)) [(2, 0), (3, (0 : ℕ))]).1.count 3 = 1 ∧
    (∀ t, (3, t) ∉ (renderPass (fun n => if n = 2 then some 7 else (none : Option ℕ)) [(2, 0), (3, (0 : ℕ))]).2) ∧
    (2, 7) ∈ (renderPass (fun n => if n = 2 then some 7 else (none : Option ℕ)) [(2, 0), (3, (0 : ℕ))]).2 := by
  have h := C8_render_pass_callback (β := ℕ) [(2, 0), (3, (0 : ℕ))]
      (fun n => if n = 2 then some 7 else (none : Option ℕ))
  obtain ⟨h1, h2, h3, h4⟩ := h
  refine ⟨by rw [h1]; rfl, ?_, ?_, h3 3 (by decide), h4 2 0 7 (by decide) (by decide)⟩
  · exact h2 (by decide) 2 (by decide)
  · exact h2 (by decide) 3 (by decide)

end MeshFilter

namespace MeshFilter

/-- Claim C4 counterexample: with near = 1 and far = 100 (a valid clipping
range), the maximum unsigned sample 65535 converts to 65.535 metres — the
full 16-bit range read in millimetres — and not to the far clipping distance
100. The claim's "maximum representable value converts to the far clipping
distance" therefore fails whenever far exceeds 65.535. -/
theorem C4_counterexample :
    (0 : ℚ) ≤ 1 ∧ (1 : ℚ) < 100 ∧
    convertedMetricDepth 1 100 65535 = 65535 / 1000 ∧
    (65535 / 1000 : ℚ) ≠ 100 := by
  refine ⟨by norm_num, by norm_num, ?_, by norm_num⟩
  unfold convertedMetricDepth transferredDepthUnsignedShort bufferToMetric clamp01
    depthScaleUnsignedShort depthBias depthTransferScale
  norm_num [min_def, max_def]

/-- Claim C4 (amended): for an unsigned 16-bit sensor frame the code sets
`GL_DEPTH_SCALE = scale * 65.535` with `scale = 1 / (far - near)` (the
sample's full-range normalization `d / 65535` times 65.535 reads the sample
in millimetres) and `GL_DEPTH_BIAS = -scale * near`. Under this transform a
sample at the minimum representable value 0 converts to the near clipping
distance (its negative transfer value clamps to buffer 0), and a sample at
the maximum representable value 65535 converts to the far clipping distance
provided the far clipping plane does not exceed 65.535 metres — beyond that
it converts to 65.535 m (see the counterexample). -/
theorem C4_amended_unsigned_short (near far : ℚ) (h0 : 0 ≤ near)
    (hnf : near < far) (hfar : far ≤ 65.535) :
    depthScaleUnsignedShort near far = depthTransferScale near far * 65.535 ∧
    depthBias near far = -depthTransferScale near far * near ∧
    convertedMetricDepth near far 0 = near ∧
    convertedMetricDepth near far 65535 = far := by
  have hD : (0 : ℚ) < far - near := by linarith
  refine ⟨rfl, rfl, ?_, ?_⟩
  · have hval : (0 : ℕ) / 65535 * depthScaleUnsignedShort near far + depthBias near far
        = -(near / (far - near)) := by
      unfold depthScaleUnsignedShort depthBias depthTransferScale
      push_cast
      field_simp
    have hle : -(near / (far - near)) ≤ 0 := by
      rw [neg_nonpos]
      exact div_nonneg h0 (le_of_lt hD)
    unfold convertedMetricDepth transferredDepthUnsignedShort bufferToMetric clamp01
    rw [hval, min_eq_right (le_trans hle zero_le_one), max_eq_left hle]
    ring
  · have hval : ((65535 : ℕ) : ℚ) / 65535 * depthScaleUnsignedShort near far
        + depthBias near far = (65535 / 1000 - near) / (far - near) := by
      unfold depthScaleUnsignedShort depthBias depthTransferScale
      push_cast
      field_simp
      ring
    have hge : (1 : ℚ) ≤ (65535 / 1000 - near) / (far - near) := by
      rw [one_le_div hD]
      have : far ≤ 65535 / 1000 := by linarith [hfar]
      linarith
    unfold convertedMetricDepth transferredDepthUnsignedShort bufferToMetric clamp01
    rw [hval, min_eq_left hge, max_eq_right (zero_le_one)]
    ring

/-- Witness for the amended C4 at near = 1/2, far = 5: sample 0 converts to
1/2 and sample 65535 converts to 5. -/
theorem C4_witness :
    ((0 : ℚ) ≤ 1 / 2 ∧ (1 / 2 : ℚ) < 5 ∧ (5 : ℚ) ≤ 65.535) ∧
    (depthScaleUnsignedShort (1 / 2) 5 = depthTransferScale (1 / 2) 5 * 65.535 ∧
      depthBias (1 / 2) 5 = -depthTransferScale (1 / 2) 5 * (1 / 2) ∧
      convertedMetricDepth (1 / 2) 5 0 = 1 / 2 ∧
      convertedMetricDepth (1 / 2) 5 65535 = 5) :=
  ⟨⟨by norm_num, by norm_num, by norm_num⟩,
    C4_amended_unsigned_short (1 / 2) 5 (by norm_num) (by norm_num) (by norm_num)⟩

end MeshFilter

namespace MeshFilter

/-! ## Executor lemmas -/

theorem setStatus_self (f : ℕ → JStatus) (k : ℕ) (v : JStatus) : setStatus f k v k = v := by
  simp [setStatus]

theorem setStatus_ne (f : ℕ → JStatus) {k j : ℕ} (v : JStatus) (h : j ≠ k) :
    setStatus f k v j = f j := by
  simp [setStatus, h]

theorem live_submit (s : ExecState) : live (submitStep s) = live s ++ [s.submitted] := by
  simp [live, submitStep]

theorem live_dequeue (s : ExecState) (j : ℕ) (rest : List ℕ) (h2 : s.current = none)
    (h3 : s.queue = j :: rest) : live (dequeueStep s j rest) = live s := by
  simp [live, dequeueStep, h2, h3]

theorem live_complete (s : ExecState) (j : ℕ) (h : s.current = some j) :
    live (completeStep s j) = live s := by
  simp [live, completeStep, h]

theorem live_shutdown (s : ExecState) :
    live (shutdownStep s) = s.executed ++ s.current.toList := by
  simp [live, shutdownStep]

theorem mem_live_executed {s : ExecState} {j : ℕ} (h : j ∈ s.executed) : j ∈ live s := by
  simp [live, h]

theorem mem_live_current {s : ExecState} {j : ℕ} (h : s.current = some j) : j ∈ live s := by
  simp [live, h]

theorem mem_live_queue {s : ExecState} {j : ℕ} (h : j ∈ s.queue) : j ∈ live s := by
  simp [live, h]

theorem mem_live_cases {s : ExecState} {j : ℕ} (h : j ∈ live s) :
    j ∈ s.executed ∨ s.current = some j ∨ j ∈ s.queue := by
  rw [live] at h
  rcases List.mem_append.mp h with h1 | h2
  · rcases List.mem_append.mp h1 with he | hc
    · exact Or.inl he
    · refine Or.inr (Or.inl ?_)
      cases hcur : s.current with
      | none => rw [hcur] at hc; simp at hc
      | some k => rw [hcur] at hc; simp at hc; rw [hc]
  · exact Or.inr (Or.inr h2)

theorem inv_executed_not_queue {s : ExecState} (h : ExecInv s) {j : ℕ}
    (he : j ∈ s.executed) (hq : j ∈ s.queue) : False := by
  have h1 := h.e_completed j he
  have h2 := h.q_pending j hq
  rw [h1] at h2
  exact JStatus.noConfusion h2

theorem inv_current_not_queue {s : ExecState} (h : ExecInv s) {j : ℕ}
    (hc : s.current = some j) (hq : j ∈ s.queue) : False := by
  have h1 := h.c_running j hc
  have h2 := h.q_pending j hq
  rw [h1] at h2
  exact JStatus.noConfusion h2

theorem inv_current_not_executed {s : ExecState} (h : ExecInv s) {j : ℕ}
    (hc : s.current = some j) (he : j ∈ s.executed) : False := by
  have h1 := h.c_running j hc
  have h2 := h.e_completed j he
  rw [h1] at h2
  exact JStatus.noConfusion h2

theorem inv_cancelled_not_live {s : ExecState} (h : ExecInv s) {j : ℕ}
    (hc : s.status j = JStatus.cancelled) : j ∉ s.executed ∧ s.current ≠ some j ∧ j ∉ s.queue := by
  refine ⟨fun he => ?_, fun hcur => ?_, fun hq => ?_⟩
  · have := h.e_completed j he; rw [hc] at this; exact JStatus.noConfusion this
  · have := h.c_running j hcur; rw [hc] at this; exact JStatus.noConfusion this
  · have := h.q_pending j hq; rw [hc] at this; exact JStatus.noConfusion this

/-- Elements already executed (or executing) precede all queued elements. -/
theorem inv_cross_lt {s : ExecState} (h : ExecInv s) {x y : ℕ}
    (hx : x ∈ s.executed ∨ s.current = some x) (hy : y ∈ s.queue) : x < y := by
  have hs := h.sorted
  rw [live] at hs
  have hcross := (List.pairwise_append.mp hs).2.2
  refine hcross x ?_ y hy
  rcases hx with hx | hx
  · exact List.mem_append.mpr (Or.inl hx)
  · exact List.mem_append.mpr (Or.inr (by simp [hx]))

/-- Executed elements precede the current job and all queued elements. -/
theorem inv_executed_lt {s : ExecState} (h : ExecInv s) {x y : ℕ}
    (hx : x ∈ s.executed) (hy : s.current = some y ∨ y ∈ s.queue) : x < y := by
  have hs := h.sorted
  rw [live, List.append_assoc] at hs
  have hcross := (List.pairwise_append.mp hs).2.2
  refine hcross x hx y ?_
  rcases hy with hy | hy
  · exact List.mem_append.mpr (Or.inl (by simp [hy]))
  · exact List.mem_append.mpr (Or.inr hy)

theorem execInv_init : ExecInv initExec := by
  refine ⟨?_, ?_, ?_, ?_, ?_, ?_, ?_, ?_, ?_, ?_⟩ <;> simp [initExec, live]

end MeshFilter

namespace MeshFilter

theorem execInv_submit {s : ExecState} (h : ExecInv s) : ExecInv (submitStep s) := by
  have hlive : ∀ j ∈ live s, j < s.submitted := h.lt_sub
  refine ⟨?_, ?_, ?_, ?_, ?_, ?_, ?_, ?_, ?_, ?_⟩
  · -- sorted
    rw [live_submit]
    refine List.pairwise_append.mpr ⟨h.sorted, List.sorted_singleton _, ?_⟩
    intro x hx y hy
    rw [List.mem_singleton] at hy
    exact hy ▸ hlive x hx
  · -- lt_sub
    intro j hj
    rw [live_submit] at hj
    rcases List.mem_append.mp hj with hj | hj
    · have := hlive j hj; simp [submitStep]; omega
    · rw [List.mem_singleton] at hj; simp [submitStep, hj]
  · -- q_pending
    intro j hj
    simp only [submitStep, List.mem_append, List.mem_singleton] at hj
    rcases hj with hj | rfl
    · have hne : j ≠ s.submitted := Nat.ne_of_lt (hlive j (mem_live_queue hj))
      simp only [submitStep]
      rw [setStatus_ne _ _ hne]
      exact h.q_pending j hj
    · simp only [submitStep]
      rw [setStatus_self]
  · -- e_completed
    intro j hj
    simp only [submitStep] at hj ⊢
    have hne : j ≠ s.submitted := Nat.ne_of_lt (hlive j (mem_live_executed hj))
    rw [setStatus_ne _ _ hne]
    exact h.e_completed j hj
  · -- c_running
    intro j hj
    simp only [submitStep] at hj ⊢
    have hne : j ≠ s.submitted := Nat.ne_of_lt (hlive j (mem_live_current hj))
    rw [setStatus_ne _ _ hne]
    exact h.c_running j hj
  · -- run_current
    intro j hj
    simp only [submitStep] at hj ⊢
    by_cases hne : j = s.submitted
    · rw [hne, setStatus_self] at hj; exact JStatus.noConfusion hj
    · rw [setStatus_ne _ _ hne] at hj; exact h.run_current j hj
  · -- hi_unsub
    intro j hj
    simp only [submitStep] at hj ⊢
    have hne : j ≠ s.submitted := by omega
    rw [setStatus_ne _ _ hne]
    exact h.hi_unsub j (by omega)
  · -- account
    intro j hj
    simp only [submitStep] at hj
    by_cases hje : j = s.submitted
    · left
      rw [live_submit, hje]
      simp
    · rcases h.account j (by omega) with hl | hc
      · left; rw [live_submit]; exact List.mem_append.mpr (Or.inl hl)
      · right; simp only [submitStep]; rw [setStatus_ne _ _ hje]; exact hc
  · -- canc_stop
    intro j hj
    simp only [submitStep] at hj ⊢
    by_cases hje : j = s.submitted
    · rw [hje, setStatus_self] at hj; exact JStatus.noConfusion hj
    · rw [setStatus_ne _ _ hje] at hj; exact h.canc_stop j hj
  · -- canc_up
    intro a b hab ha hb
    simp only [submitStep] at ha hb ⊢
    by_cases hae : a = s.submitted
    · rw [hae, setStatus_self] at ha; exact JStatus.noConfusion ha
    · rw [setStatus_ne _ _ hae] at ha
      by_cases hbe : b = s.submitted
      · right; rw [hbe]; simp
      · rcases h.canc_up a b hab ha (by omega) with hc | hq
        · left; rw [setStatus_ne _ _ hbe]; exact hc
        · right; simp [hq]

theorem submitPairStep_eq (s : ExecState) :
    submitPairStep s = submitStep (submitStep s) := by
  simp only [submitPairStep, submitStep]
  congr 1
  simp

theorem execInv_submitPair {s : ExecState} (h : ExecInv s) : ExecInv (submitPairStep s) := by
  rw [submitPairStep_eq]
  exact execInv_submit (execInv_submit h)

end MeshFilter

namespace MeshFilter

theorem execInv_dequeue {s : ExecState} (h : ExecInv s) (j : ℕ) (rest : List ℕ)
    (h1 : s.stop = false) (h2 : s.current = none) (h3 : s.queue = j :: rest) :
    ExecInv (dequeueStep s j rest) := by
  have hjq : j ∈ s.queue := by rw [h3]; exact List.mem_cons_self _ _
  have hjlt : j < s.submitted := h.lt_sub j (mem_live_queue hjq)
  have hnocanc : ∀ k, s.status k ≠ JStatus.cancelled := by
    intro k hc
    rw [h.canc_stop k hc] at h1
    exact Bool.noConfusion h1
  have hqsorted : s.queue.Sorted (· < ·) := by
    have hs := h.sorted
    rw [live] at hs
    exact (List.pairwise_append.mp hs).2.1
  have hjrest : ∀ y ∈ rest, j < y := by
    rw [h3] at hqsorted
    exact (List.sorted_cons.mp hqsorted).1
  refine ⟨?_, ?_, ?_, ?_, ?_, ?_, ?_, ?_, ?_, ?_⟩
  · rw [live_dequeue s j rest h2 h3]; exact h.sorted
  · intro k hk
    rw [live_dequeue s j rest h2 h3] at hk
    simp only [dequeueStep]
    exact h.lt_sub k hk
  · intro k hk
    simp only [dequeueStep] at hk ⊢
    have hne : k ≠ j := fun he => absurd (hjrest k hk) (by omega)
    rw [setStatus_ne _ _ hne]
    exact h.q_pending k (by rw [h3]; exact List.mem_cons_of_mem _ hk)
  · intro k hk
    simp only [dequeueStep] at hk ⊢
    have hne : k ≠ j := fun he => inv_executed_not_queue h (he ▸ hk) hjq
    rw [setStatus_ne _ _ hne]
    exact h.e_completed k hk
  · intro k hk
    simp only [dequeueStep, Option.some.injEq] at hk ⊢
    rw [← hk, setStatus_self]
  · intro k hk
    simp only [dequeueStep] at hk ⊢
    by_cases hne : k = j
    · rw [hne]
    · rw [setStatus_ne _ _ hne] at hk
      have := h.run_current k hk
      rw [h2] at this
      exact Option.noConfusion this
  · intro k hk
    simp only [dequeueStep] at hk ⊢
    have hne : k ≠ j := by omega
    rw [setStatus_ne _ _ hne]
    exact h.hi_unsub k hk
  · intro k hk
    simp only [dequeueStep] at hk
    rcases h.account k hk with hl | hc
    · left; rw [live_dequeue s j rest h2 h3]; exact hl
    · exact absurd hc (hnocanc k)
  · intro k hk
    simp only [dequeueStep] at hk ⊢
    by_cases hne : k = j
    · rw [hne, setStatus_self] at hk; exact JStatus.noConfusion hk
    · rw [setStatus_ne _ _ hne] at hk; exact absurd hk (hnocanc k)
  · intro a b hab ha hb
    simp only [dequeueStep] at ha
    by_cases hne : a = j
    · rw [hne, setStatus_self] at ha; exact JStatus.noConfusion ha
    · rw [setStatus_ne _ _ hne] at ha; exact absurd ha (hnocanc a)

theorem execInv_complete {s : ExecState} (h : ExecInv s) (j : ℕ)
    (hcur : s.current = some j) : ExecInv (completeStep s j) := by
  have hjlt : j < s.submitted := h.lt_sub j (mem_live_current hcur)
  have hjrun : s.status j = JStatus.running := h.c_running j hcur
  refine ⟨?_, ?_, ?_, ?_, ?_, ?_, ?_, ?_, ?_, ?_⟩
  · rw [live_complete s j hcur]; exact h.sorted
  · intro k hk
    rw [live_complete s j hcur] at hk
    simp only [completeStep]
    exact h.lt_sub k hk
  · intro k hk
    simp only [completeStep] at hk ⊢
    have hne : k ≠ j := fun he => inv_current_not_queue h hcur (he ▸ hk)
    rw [setStatus_ne _ _ hne]
    exact h.q_pending k hk
  · intro k hk
    simp only [completeStep, List.mem_append, List.mem_singleton] at hk
    simp only [completeStep]
    rcases hk with hk | rfl
    · have hne : k ≠ j := fun he => inv_current_not_executed h hcur (he ▸ hk)
      rw [setStatus_ne _ _ hne]
      exact h.e_completed k hk
    · rw [setStatus_self]
  · intro k hk
    simp only [completeStep] at hk
    exact Option.noConfusion hk
  · intro k hk
    simp only [completeStep] at hk ⊢
    by_cases hne : k = j
    · rw [hne, setStatus_self] at hk; exact JStatus.noConfusion hk
    · rw [setStatus_ne _ _ hne] at hk
      have := h.run_current k hk
      rw [hcur] at this
      exact absurd (Option.some.injEq _ _ ▸ this) (by simpa using fun he => hne he.symm)
  · intro k hk
    simp only [completeStep] at hk ⊢
    have hne : k ≠ j := by omega
    rw [setStatus_ne _ _ hne]
    exact h.hi_unsub k hk
  · intro k hk
    simp only [completeStep] at hk
    rcases h.account k hk with hl | hc
    · left; rw [live_complete s j hcur]; exact hl
    · right
      have hne : k ≠ j := fun he => by rw [he, hjrun] at hc; exact JStatus.noConfusion hc
      simp only [completeStep]
      rw [setStatus_ne _ _ hne]
      exact hc
  · intro k hk
    simp only [completeStep] at hk ⊢
    by_cases hne : k = j
    · rw [hne, setStatus_self] at hk; exact JStatus.noConfusion hk
    · rw [setStatus_ne _ _ hne] at hk; exact h.canc_stop k hk
  · intro a b hab ha hb
    simp only [completeStep] at ha hb ⊢
    by_cases hane : a = j
    · rw [hane, setStatus_self] at ha; exact JStatus.noConfusion ha
    · rw [setStatus_ne _ _ hane] at ha
      rcases h.canc_up a b hab ha hb with hc | hq
      · left
        have hbne : b ≠ j := fun he => by rw [he, hjrun] at hc; exact JStatus.noConfusion hc
        rw [setStatus_ne _ _ hbne]
        exact hc
      · right; exact hq

end MeshFilter

namespace MeshFilter

theorem execInv_shutdown {s : ExecState} (h : ExecInv s) : ExecInv (shutdownStep s) := by
  have hstat : ∀ k, (shutdownStep s).status k
      = if k ∈ s.queue then JStatus.cancelled else s.status k := fun k => rfl
  refine ⟨?_, ?_, ?_, ?_, ?_, ?_, ?_, ?_, ?_, ?_⟩
  · rw [live_shutdown]
    have hs := h.sorted
    rw [live] at hs
    exact (List.pairwise_append.mp hs).1
  · intro k hk
    rw [live_shutdown] at hk
    simp only [shutdownStep]
    refine h.lt_sub k ?_
    rw [live]
    exact List.mem_append.mpr (Or.inl hk)
  · intro k hk
    simp only [shutdownStep, List.not_mem_nil] at hk
  · intro k hk
    simp only [shutdownStep] at hk
    rw [hstat k, if_neg (fun hq => inv_executed_not_queue h hk hq)]
    exact h.e_completed k hk
  · intro k hk
    simp only [shutdownStep] at hk
    rw [hstat k, if_neg (fun hq => inv_current_not_queue h hk hq)]
    exact h.c_running k hk
  · intro k hk
    rw [hstat k] at hk
    by_cases hq : k ∈ s.queue
    · rw [if_pos hq] at hk; exact JStatus.noConfusion hk
    · rw [if_neg hq] at hk
      simp only [shutdownStep]
      exact h.run_current k hk
  · intro k hk
    simp only [shutdownStep] at hk
    rw [hstat k, if_neg (fun hq => absurd (h.lt_sub k (mem_live_queue hq)) (by omega))]
    exact h.hi_unsub k hk
  · intro k hk
    simp only [shutdownStep] at hk
    rcases h.account k hk with hl | hc
    · rcases mem_live_cases hl with he | hcur | hq
      · left; rw [live_shutdown]; exact List.mem_append.mpr (Or.inl he)
      · left; rw [live_shutdown]; exact List.mem_append.mpr (Or.inr (by simp [hcur]))
      · right; rw [hstat k, if_pos hq]
    · right
      rw [hstat k, if_neg (inv_cancelled_not_live h hc).2.2]
      exact hc
  · intro k _
    simp [shutdownStep]
  · intro a b hab ha hb
    simp only [shutdownStep] at hb
    left
    rw [hstat a] at ha
    rw [hstat b]
    by_cases haq : a ∈ s.queue
    · rcases h.account b hb with hl | hc
      · rcases mem_live_cases hl with he | hcur | hq
        · exact absurd (inv_cross_lt h (Or.inl he) haq) (by omega)
        · exact absurd (inv_cross_lt h (Or.inr hcur) haq) (by omega)
        · rw [if_pos hq]
      · by_cases hbq : b ∈ s.queue
        · rw [if_pos hbq]
        · rw [if_neg hbq]; exact hc
    · rw [if_neg haq] at ha
      rcases h.canc_up a b hab ha hb with hc | hq
      · by_cases hbq : b ∈ s.queue
        · rw [if_pos hbq]
        · rw [if_neg hbq]; exact hc
      · rw [if_pos hq]

theorem execInv_step {s t : ExecState} (h : ExecInv s) (hst : Step s t) : ExecInv t := by
  cases hst with
  | submit => exact execInv_submit h
  | submitPair => exact execInv_submitPair h
  | dequeue j rest h1 h2 h3 => exact execInv_dequeue h j rest h1 h2 h3
  | complete j hcur => exact execInv_complete h j hcur
  | shutdown => exact execInv_shutdown h

theorem reach_execInv {s : ExecState} (h : Reach s) : ExecInv s := by
  induction h with
  | init => exact execInv_init
  | step _ hst ih => exact execInv_step ih hst

end MeshFilter

namespace MeshFilter

theorem executed_sorted {s : ExecState} (h : ExecInv s) : s.executed.Sorted (· < ·) := by
  have hs := h.sorted
  rw [live] at hs
  exact (List.pairwise_append.mp (List.pairwise_append.mp hs).1).1

theorem sorted_pair_sublist {l : List ℕ} (hs : l.Sorted (· < ·)) :
    ∀ i j : ℕ, i < j → i ∈ l → j ∈ l → [i, j].Sublist l := by
  induction l with
  | nil => intro i j _ hi _; simp at hi
  | cons x rest ih =>
    intro i j hij hi hj
    obtain ⟨hx, hsr⟩ := List.sorted_cons.mp hs
    rcases List.mem_cons.mp hi with rfl | hir
    · have hjr : j ∈ rest := by
        rcases List.mem_cons.mp hj with h | h
        · omega
        · exact h
      exact List.Sublist.cons₂ _ (List.singleton_sublist.mpr hjr)
    · have hjr : j ∈ rest := by
        rcases List.mem_cons.mp hj with h | h
        · exact absurd (hx i hir) (by omega)
        · exact h
      exact List.Sublist.cons _ (ih hsr i j hij hir hjr)

theorem sorted_consecutive_adjacent {l : List ℕ} (hs : l.Sorted (· < ·)) :
    ∀ a : ℕ, a ∈ l → a + 1 ∈ l → ∃ l1 l2, l = l1 ++ a :: (a + 1) :: l2 := by
  induction l with
  | nil => intro a ha; simp at ha
  | cons x rest ih =>
    intro a ha ha1
    obtain ⟨hx, hsr⟩ := List.sorted_cons.mp hs
    rcases List.mem_cons.mp ha with rfl | har
    · have h1r : a + 1 ∈ rest := by
        rcases List.mem_cons.mp ha1 with h | h
        · omega
        · exact h
      cases rest with
      | nil => simp at h1r
      | cons y rest2 =>
        have hy : y = a + 1 := by
          rcases List.mem_cons.mp h1r with h | h
          · omega
          · have hy1 : y < a + 1 := (List.sorted_cons.mp hsr).1 _ h
            have hay : a < y := hx y (List.mem_cons_self _ _)
            omega
        exact ⟨[], rest2, by rw [hy]; rfl⟩
    · have h1r : a + 1 ∈ rest := by
        rcases List.mem_cons.mp ha1 with h | h
        · have := hx a har; omega
        · exact h
      obtain ⟨l1, l2, hl⟩ := ih hsr a har h1r
      exact ⟨x :: l1, l2, by rw [hl]; rfl⟩

theorem earlier_executed {s : ExecState} (h : ExecInv s) {a b : ℕ} (hab : a < b)
    (hb : b ∈ s.executed) : a ∈ s.executed := by
  have hst : s.status b = JStatus.completed := h.e_completed _ hb
  have hlt : b < s.submitted := h.lt_sub _ (mem_live_executed hb)
  rcases h.account a (by omega) with hl | hc
  · rcases mem_live_cases hl with he | hcur | hq
    · exact he
    · exact absurd (inv_executed_lt h hb (Or.inl hcur)) (by omega)
    · exact absurd (inv_executed_lt h hb (Or.inr hq)) (by omega)
  · rcases h.canc_up a b (by omega) hc hlt with hc2 | hq2
    · rw [hst] at hc2; exact JStatus.noConfusion hc2
    · have hp := h.q_pending _ hq2
      rw [hst] at hp
      exact JStatus.noConfusion hp

theorem submitPair_status_ne {s : ExecState} {j : ℕ} (h1 : j ≠ s.submitted)
    (h2 : j ≠ s.submitted + 1) : (submitPairStep s).status j = s.status j := by
  simp only [submitPairStep]
  rw [setStatus_ne _ _ h2, setStatus_ne _ _ h1]

end MeshFilter

namespace MeshFilter

/-- Claim C2: over every reachable state and transition of the executor, a
job becomes cancelled only while it is still pending in the queue (the
destructor's drain); cancellation is permanent; a running (dequeued) job can
only stay running or reach completed — there is no running→cancelled
transition; the transition that sets `stop_` (destructor) cancels every
still-queued job, empties the queue, and executes none of them; and a
cancelled job is never the executed, current, or queued job of any reachable
state. -/
theorem C2_job_lifecycle {s t : ExecState} (hs : Reach s) (hst : Step s t) :
    (∀ j, t.status j = JStatus.cancelled → s.status j ≠ JStatus.cancelled →
      s.status j = JStatus.pending ∧ j ∈ s.queue) ∧
    (∀ j, s.status j = JStatus.cancelled → t.status j = JStatus.cancelled) ∧
    (∀ j, s.status j = JStatus.running →
      t.status j = JStatus.running ∨ t.status j = JStatus.completed) ∧
    (s.stop = false → t.stop = true →
      t.queue = [] ∧ ∀ j ∈ s.queue, t.status j = JStatus.cancelled ∧ j ∉ t.executed) ∧
    (∀ j, s.status j = JStatus.cancelled →
      j ∉ s.executed ∧ s.current ≠ some j ∧ j ∉ s.queue) := by
  have hinv : ExecInv s := reach_execInv hs
  have hfresh : s.status s.submitted = JStatus.unsubmitted := hinv.hi_unsub _ (le_refl _)
  have hfresh1 : s.status (s.submitted + 1) = JStatus.unsubmitted := hinv.hi_unsub _ (by omega)
  cases hst with
  | submit =>
    refine ⟨?_, ?_, ?_, ?_, fun j hc => inv_cancelled_not_live hinv hc⟩
    · intro j h1 h2
      simp only [submitStep] at h1
      by_cases hje : j = s.submitted
      · rw [hje, setStatus_self] at h1; exact JStatus.noConfusion h1
      · rw [setStatus_ne _ _ hje] at h1; exact absurd h1 h2
    · intro j hc
      have hje : j ≠ s.submitted := fun he => by
        rw [he, hfresh] at hc; exact JStatus.noConfusion hc
      simp only [submitStep]
      rw [setStatus_ne _ _ hje]
      exact hc
    · intro j hr
      left
      have hje : j ≠ s.submitted := fun he => by
        rw [he, hfresh] at hr; exact JStatus.noConfusion hr
      simp only [submitStep]
      rw [setStatus_ne _ _ hje]
      exact hr
    · intro h1 h2
      simp only [submitStep] at h2
      rw [h1] at h2
      exact Bool.noConfusion h2
  | submitPair =>
    refine ⟨?_, ?_, ?_, ?_, fun j hc => inv_cancelled_not_live hinv hc⟩
    · intro j h1 h2
      simp only [submitPairStep] at h1
      by_cases hj1 : j = s.submitted + 1
      · rw [hj1, setStatus_self] at h1; exact JStatus.noConfusion h1
      · rw [setStatus_ne _ _ hj1] at h1
        by_cases hj0 : j = s.submitted
        · rw [hj0, setStatus_self] at h1; exact JStatus.noConfusion h1
        · rw [setStatus_ne _ _ hj0] at h1; exact absurd h1 h2
    · intro j hc
      have hj0 : j ≠ s.submitted := fun he => by
        rw [he, hfresh] at hc; exact JStatus.noConfusion hc
      have hj1 : j ≠ s.submitted + 1 := fun he => by
        rw [he, hfresh1] at hc; exact JStatus.noConfusion hc
      rw [submitPair_status_ne hj0 hj1]
      exact hc
    · intro j hr
      left
      have hj0 : j ≠ s.submitted := fun he => by
        rw [he, hfresh] at hr; exact JStatus.noConfusion hr
      have hj1 : j ≠ s.submitted + 1 := fun he => by
        rw [he, hfresh1] at hr; exact JStatus.noConfusion hr
      rw [submitPair_status_ne hj0 hj1]
      exact hr
    · intro h1 h2
      simp only [submitPairStep] at h2
      rw [h1] at h2
      exact Bool.noConfusion h2
  | dequeue j0 rest h1 h2 h3 =>
    have hj0q : j0 ∈ s.queue := by rw [h3]; exact List.mem_cons_self _ _
    have hj0p : s.status j0 = JStatus.pending := hinv.q_pending _ hj0q
    refine ⟨?_, ?_, ?_, ?_, fun j hc => inv_cancelled_not_live hinv hc⟩
    · intro j hc1 hc2
      simp only [dequeueStep] at hc1
      by_cases hje : j = j0
      · rw [hje, setStatus_self] at hc1; exact JStatus.noConfusion hc1
      · rw [setStatus_ne _ _ hje] at hc1; exact absurd hc1 hc2
    · intro j hc
      have hje : j ≠ j0 := fun he => by
        rw [he, hj0p] at hc; exact JStatus.noConfusion hc
      simp only [dequeueStep]
      rw [setStatus_ne _ _ hje]
      exact hc
    · intro j hr
      have := hinv.run_current j hr
      rw [h2] at this
      exact Option.noConfusion this
    · intro hs1 hs2
      simp only [dequeueStep] at hs2
      rw [hs1] at hs2
      exact Bool.noConfusion hs2
  | complete j0 hcur =>
    have hj0r : s.status j0 = JStatus.running := hinv.c_running _ hcur
    refine ⟨?_, ?_, ?_, ?_, fun j hc => inv_cancelled_not_live hinv hc⟩
    · intro j hc1 hc2
      simp only [completeStep] at hc1
      by_cases hje : j = j0
      · rw [hje, setStatus_self] at hc1; exact JStatus.noConfusion hc1
      · rw [setStatus_ne _ _ hje] at hc1; exact absurd hc1 hc2
    · intro j hc
      have hje : j ≠ j0 := fun he => by
        rw [he, hj0r] at hc; exact JStatus.noConfusion hc
      simp only [completeStep]
      rw [setStatus_ne _ _ hje]
      exact hc
    · intro j hr
      by_cases hje : j = j0
      · right
        simp only [completeStep]
        rw [hje, setStatus_self]
      · have := hinv.run_current j hr
        rw [hcur] at this
        have : j0 = j := by injection this
        exact absurd this.symm hje
    · intro hs1 hs2
      simp only [completeStep] at hs2
      rw [hs1] at hs2
      exact Bool.noConfusion hs2
  | shutdown =>
    refine ⟨?_, ?_, ?_, ?_, fun j hc => inv_cancelled_not_live hinv hc⟩
    · intro j hc1 hc2
      have hstat : (shutdownStep s).status j
          = if j ∈ s.queue then JStatus.cancelled else s.status j := rfl
      rw [hstat] at hc1
      by_cases hq : j ∈ s.queue
      · exact ⟨hinv.q_pending _ hq, hq⟩
      · rw [if_neg hq] at hc1; exact absurd hc1 hc2
    · intro j hc
      have hstat : (shutdownStep s).status j
          = if j ∈ s.queue then JStatus.cancelled else s.status j := rfl
      rw [hstat]
      by_cases hq : j ∈ s.queue
      · rw [if_pos hq]
      · rw [if_neg hq]; exact hc
    · intro j hr
      left
      have hstat : (shutdownStep s).status j
          = if j ∈ s.queue then JStatus.cancelled else s.status j := rfl
      have hq : j ∉ s.queue := fun hq => by
        have := hinv.q_pending _ hq
        rw [hr] at this
        exact JStatus.noConfusion this
      rw [hstat, if_neg hq]
      exact hr
    · intro _ _
      refine ⟨rfl, fun j hj => ⟨?_, fun he => inv_executed_not_queue hinv he hj⟩⟩
      have hstat : (shutdownStep s).status j
          = if j ∈ s.queue then JStatus.cancelled else s.status j := rfl
      rw [hstat, if_pos hj]

/-- Claim C3: jobs execute in strict FIFO submission order on the worker
thread. Job ids are issued by the push counter under the queue lock, so
`i < j` says job `i` was submitted (from whichever caller thread) before job
`j`; in every reachable state, if both have been executed then `i` occurs
before `j` in the worker's execution order, so `i`'s side effects on the
shared mesh/pipeline state are visible to `j`'s execution on the single
worker thread. -/
theorem C3_fifo_execution_order {s : ExecState} (hs : Reach s) {i j : ℕ}
    (hij : i < j) (hj : j ∈ s.executed) :
    i ∈ s.executed ∧ [i, j].Sublist s.executed := by
  have hinv := reach_execInv hs
  have hi := earlier_executed hinv hij hj
  exact ⟨hi, sorted_pair_sublist (executed_sorted hinv) i j hij hi hj⟩

/-- Claim C10: `getModelDepth` / `getFilteredDepth` push their readback and
conversion jobs under one lock acquisition, adjacent in the queue with
consecutive ids; and for every reachable state, whenever the second of two
consecutively submitted jobs has executed, the first has executed too and
they are adjacent in the execution order — no other job runs between the
buffer readback and its metric conversion. -/
theorem C10_adjacent_depth_jobs {s : ExecState} (hs : Reach s) :
    (∀ u : ExecState,
      (submitPairStep u).queue = u.queue ++ [u.submitted, u.submitted + 1]) ∧
    (∀ a : ℕ, a + 1 ∈ s.executed →
      a ∈ s.executed ∧ ∃ l1 l2, s.executed = l1 ++ a :: (a + 1) :: l2) := by
  have hinv := reach_execInv hs
  refine ⟨fun u => rfl, fun a ha1 => ?_⟩
  have ha : a ∈ s.executed := earlier_executed hinv (by omega) ha1
  exact ⟨ha, sorted_consecutive_adjacent (executed_sorted hinv) a ha ha1⟩

theorem reach_execA6 : Reach execA6 :=
  Reach.step (Reach.step (Reach.step (Reach.step (Reach.step (Reach.step Reach.init
    (Step.submit initExec)) (Step.submit execA1)) (Step.dequeue execA2 0 [1] rfl rfl rfl))
    (Step.complete execA3 0 rfl)) (Step.dequeue execA4 1 [] rfl rfl rfl))
    (Step.complete execA5 1 rfl)

theorem reach_execB1 : Reach execB1 := Reach.step Reach.init (Step.submit initExec)

theorem reach_execC5 : Reach execC5 :=
  Reach.step (Reach.step (Reach.step (Reach.step (Reach.step Reach.init
    (Step.submitPair initExec)) (Step.dequeue execC1 0 [1] rfl rfl rfl))
    (Step.complete execC2 0 rfl)) (Step.dequeue execC3 1 [] rfl rfl rfl))
    (Step.complete execC4 1 rfl)

/-- Witness for C2: one job is submitted, then the destructor runs before the
worker picks it up; the job (id 0, pending, queued) is cancelled, the queue
is emptied, and the job is never executed. -/
theorem C2_witness :
    Reach execB1 ∧ execB1.stop = false ∧ execB2.stop = true ∧ 0 ∈ execB1.queue ∧
    (execB2.queue = [] ∧ execB2.status 0 = JStatus.cancelled ∧ 0 ∉ execB2.executed) := by
  have h := C2_job_lifecycle reach_execB1 (Step.shutdown execB1)
  have h5 := h.2.2.2.1 rfl rfl
  exact ⟨reach_execB1, rfl, rfl, by decide,
    h5.1, (h5.2 0 (by decide)).1, (h5.2 0 (by decide)).2⟩

/-- Witness for C3: jobs 0 and 1 submitted in that order and both executed;
job 0 occurs before job 1 in the execution order. -/
theorem C3_witness :
    Reach execA6 ∧ (0 : ℕ) < 1 ∧ 1 ∈ execA6.executed ∧
    (0 ∈ execA6.executed ∧ [0, 1].Sublist execA6.executed) :=
  ⟨reach_execA6, by decide, by decide,
    C3_fifo_execution_order reach_execA6 (by decide) (by decide)⟩

/-- Witness for C10: a `getModelDepth`-style pair (ids 0 and 1) pushed under
one lock and both executed: the conversion job 1 runs immediately after the
readback job 0. -/
theorem C10_witness :
    Reach execC5 ∧ (0 + 1) ∈ execC5.executed ∧
    ((submitPairStep initExec).queue
        = initExec.queue ++ [initExec.submitted, initExec.submitted + 1] ∧
      (0 ∈ execC5.executed ∧ ∃ l1 l2, execC5.executed = l1 ++ 0 :: (0 + 1) :: l2)) := by
  have h := C10_adjacent_depth_jobs reach_execC5
  exact ⟨reach_execC5, by decide, h.1 initExec, h.2 0 (by decide)⟩

end MeshFilter
